import Mathlib

/-!
Shallow embedding of `src/calc_mean_erp.py` (repository MatanGO1234/mini_project_II).

The Python function `calc_mean_erp` loads a trial table (columns start, peak,
finger) and a flat ECoG signal, imputes missing numeric fields with the column
mean and casts to `int` (`fillna(mean)` / `astype(int)`), validates that all
start and peak indices lie in `[0, len(signal))` (raising `ValueError` naming
the field otherwise), then for each trial whose window
`[start - pre_event, start + post_event]` fits inside the signal accumulates
the window `signal[start-pre : start+post+1]` into the row of a 5 × window_size
matrix selected by `finger - 1` (a pandas `.loc` access that raises `KeyError`
when `finger - 1` is not in `0..4`), increments that class count, and records
the pair `(finger, sum(window))` for the correlation scatter plot.  After the
loop each class row with positive count is divided once by its count.

File I/O, plotting and the printed Pearson correlation value are external
collaborators; the embedding models the computation on the already-loaded
table and signal, using exact rationals for the float arithmetic.
-/

namespace MeanErp

/-- One row of the trial table after `astype(int)`: start index, peak index,
finger label. -/
structure Trial where
  start : Int
  peak : Int
  finger : Int
deriving DecidableEq, Repr

/-- One raw row of the trial table as loaded from CSV: each numeric field may
be missing (NaN). -/
structure RawTrial where
  start : Option ℚ
  peak : Option ℚ
  finger : Option ℚ
deriving DecidableEq, Repr

/-- Python/numpy `astype(int)` on a float: truncation toward zero
(the numerator T-divided by the denominator). -/
def truncQ (q : ℚ) : Int := q.num.tdiv (q.den : Int)

/-- pandas column mean: mean of the non-missing entries, `none` when every
entry is missing (an all-NaN column has NaN mean). -/
def colMean (col : List (Option ℚ)) : Option ℚ :=
  let vals := col.filterMap id
  if vals.length = 0 then none else some (vals.sum / (vals.length : ℚ))

/-- `fillna` on one cell: a missing cell is replaced by the column mean
(itself possibly missing). -/
def fillField (m : Option ℚ) : Option ℚ → Option ℚ
  | some v => some v
  | none => m

/-- `fillna` + `astype(int)` on one row, given the three column means;
`none` when a cell is still missing after imputation (astype raises on NaN). -/
def imputeTrial (ms mp mf : Option ℚ) (r : RawTrial) : Option Trial :=
  match fillField ms r.start, fillField mp r.peak, fillField mf r.finger with
  | some s, some p, some f => some ⟨truncQ s, truncQ p, truncQ f⟩
  | _, _, _ => none

/-- Elementwise sequencing of an `Option`-valued map over a list. -/
def optMap (f : α → Option β) : List α → Option (List β)
  | [] => some []
  | x :: xs =>
    match f x, optMap f xs with
    | some y, some ys => some (y :: ys)
    | _, _ => none

/-- Lines 23–30 of the source: `trial_points.fillna(trial_points.mean())`
followed by `astype(int)` on each column. -/
def imputeTable (raws : List RawTrial) : Option (List Trial) :=
  optMap
    (imputeTrial (colMean (raws.map (·.start))) (colMean (raws.map (·.peak)))
      (colMean (raws.map (·.finger))))
    raws

/-- The ECoG signal: a flat list of real-valued samples (exact rationals). -/
abbrev Signal := List ℚ

/-- `window_size = pre_event + post_event + 1` (line 41). -/
def window_size (pre post : Nat) : Nat := pre + post + 1

/-- `ecog_signal[start - pre : start + post + 1]` (line 55); in the included
branch both bounds are nonnegative, so the slice is drop-then-take. -/
def sliceWindow (signal : Signal) (start : Int) (pre post : Nat) : List ℚ :=
  (signal.drop (start - (pre : Int)).toNat).take (window_size pre post)

/-- Elementwise addition of two sample vectors. -/
def addVec (v w : List ℚ) : List ℚ := List.zipWith (· + ·) v w

/-- pandas `.loc[finger - 1]` label lookup on an index of `0..4`: `some` of the
class position when `finger - 1` is one of the labels `0, …, 4`, otherwise a
`KeyError`. -/
def classIdx? (finger : Int) : Option (Fin 5) :=
  if h : 0 ≤ finger - 1 ∧ finger - 1 < 5 then
    some ⟨(finger - 1).toNat, by omega⟩
  else none

/-- The exceptions the computation can raise: the two `ValueError`s of the
bounds validation (lines 35–38, field-specific message, no row information)
and the pandas `KeyError` from `.loc[finger - 1]` on an out-of-range label. -/
inductive ErpError where
  | startOutOfBounds
  | peakOutOfBounds
  | keyError (label : Int)
deriving DecidableEq, Repr

/-- The loop state: per-class running sums (`fingers_erp_mean` before
division), per-class float counts (`finger_counts`), and the
`finger_responses` list of `(finger, sum(window))` pairs. -/
structure ErpState where
  sums : Fin 5 → List ℚ
  counts : Fin 5 → ℚ
  responses : List (Int × ℚ)

instance : DecidableEq ErpState := fun a b =>
  decidable_of_iff (a.sums = b.sums ∧ a.counts = b.counts ∧ a.responses = b.responses)
    (by cases a; cases b; simp [ErpState.mk.injEq])

/-- What the function exposes: the returned 5 × window_size mean matrix and the
response pairs handed to the correlation/plot. -/
structure ErpOutput where
  fingers_erp_mean : Fin 5 → List ℚ
  responses : List (Int × ℚ)

instance : DecidableEq ErpOutput := fun a b =>
  decidable_of_iff (a.fingers_erp_mean = b.fingers_erp_mean ∧ a.responses = b.responses)
    (by cases a; cases b; simp [ErpOutput.mk.injEq])

/-- The inclusion rule of line 53:
`start_idx - pre_event >= 0 and start_idx + post_event < len(ecog_signal)`. -/
def includedTrial (signal : Signal) (pre post : Nat) (t : Trial) : Prop :=
  0 ≤ t.start - (pre : Int) ∧ t.start + (post : Int) < (signal.length : Int)

instance (signal : Signal) (pre post : Nat) (t : Trial) :
    Decidable (includedTrial signal pre post t) := by
  unfold includedTrial; exact inferInstance

/-- One iteration of the trial loop (lines 49–62). -/
def stepTrial (signal : Signal) (pre post : Nat) (st : ErpState) (t : Trial) :
    Except ErpError ErpState :=
  if includedTrial signal pre post t then
    match classIdx? t.finger with
    | some i =>
      let w := sliceWindow signal t.start pre post
      .ok { sums := Function.update st.sums i (addVec (st.sums i) w)
            counts := Function.update st.counts i (st.counts i + 1)
            responses := st.responses ++ [(t.finger, w.sum)] }
    | none => .error (.keyError (t.finger - 1))
  else .ok st

/-- The trial loop: iterate `stepTrial` in table order, aborting on the first
raised exception. -/
def runTrials (signal : Signal) (pre post : Nat) :
    ErpState → List Trial → Except ErpError ErpState
  | st, [] => .ok st
  | st, t :: ts =>
    match stepTrial signal pre post st t with
    | .ok st' => runTrials signal pre post st' ts
    | .error e => .error e

/-- Zero-initialized accumulators (lines 44–45, 48). -/
def initState (ws : Nat) : ErpState :=
  { sums := fun _ => List.replicate ws 0
    counts := fun _ => 0
    responses := [] }

/-- Lines 64–67: divide each class row by its count, once, only when the count
is positive. -/
def finalize (st : ErpState) : Fin 5 → List ℚ := fun i =>
  if 0 < st.counts i then (st.sums i).map (fun x => x / st.counts i) else st.sums i

/-- Bounds validation of a start index (line 35). -/
def startOOB (signal : Signal) (t : Trial) : Bool :=
  decide (t.start < 0) || decide ((signal.length : Int) ≤ t.start)

/-- Bounds validation of a peak index (line 37). -/
def peakOOB (signal : Signal) (t : Trial) : Bool :=
  decide (t.peak < 0) || decide ((signal.length : Int) ≤ t.peak)

/-- The whole computation on the loaded integer table: eager bounds
validation, then the accumulation loop, then the per-class division; returns
the mean matrix and the response pairs, or the first exception raised. -/
def calc_mean_erp (trials : List Trial) (signal : Signal) (pre post : Nat) :
    Except ErpError ErpOutput :=
  if trials.any (startOOB signal) then .error .startOutOfBounds
  else if trials.any (peakOOB signal) then .error .peakOutOfBounds
  else
    match runTrials signal pre post (initState (window_size pre post)) trials with
    | .ok st => .ok ⟨finalize st, st.responses⟩
    | .error e => .error e

/-- Boolean form of the inclusion rule, for filtering. -/
def includedB (signal : Signal) (pre post : Nat) (t : Trial) : Bool :=
  decide (includedTrial signal pre post t)

/-- The sublist of trials accumulated into class `i`: included by the window
rule and labeled `finger = i + 1`. -/
def accClass (signal : Signal) (pre post : Nat) (i : Fin 5) (trials : List Trial) :
    List Trial :=
  trials.filter fun t => includedB signal pre post t && (classIdx? t.finger == some i)

/-- The sublist of trials passing the inclusion rule. -/
def includedOnly (signal : Signal) (pre post : Nat) (trials : List Trial) : List Trial :=
  trials.filter (includedB signal pre post)

/-- Replace the peak column of a trial table (used to state that the result
does not depend on peak indices). -/
def setPeaks (trials : List Trial) (ps : List Int) : List Trial :=
  List.zipWith (fun t p => { t with peak := p }) trials ps

/-- A 10-sample ramp signal used for concrete witnesses. -/
def signalB : Signal := (List.range 10).map (fun n : Nat => (n : ℚ))

/-- A boundary trial for `signalB` with `pre = 1`, `post = 8`: its window is
`[0, 9]`, exactly the full signal (lo = 0, hi = len − 1). -/
def trialB : Trial := ⟨1, 0, 2⟩

/-- The state after accumulating `trialB` from the zero-initialized state. -/
def stB : ErpState :=
  ((stepTrial signalB 1 8 (initState (window_size 1 8)) trialB).toOption).getD
    (initState (window_size 1 8))

theorem sliceWindow_length (signal : Signal) (pre post : Nat) (start : Int)
    (h0 : 0 ≤ start - (pre : Int)) (h1 : start + (post : Int) < (signal.length : Int)) :
    (sliceWindow signal start pre post).length = window_size pre post := by
  unfold sliceWindow window_size
  rw [List.length_take, List.length_drop]
  omega

/-- C1: a trial is accumulated into its finger class exactly when
`lo = start − pre ≥ 0` and `hi = start + post < len(signal)` (so `lo = 0` and
`hi = len − 1` are included, `lo = −1` and `hi = len` are excluded); an
excluded trial changes no class's sum or count, and an included window has
exactly `window_size = pre + post + 1` samples. -/
theorem C1_inclusion_rule (signal : Signal) (pre post : Nat) (st : ErpState)
    (t : Trial) (st' : ErpState) (h : stepTrial signal pre post st t = .ok st') :
    if includedTrial signal pre post t then
      ∃ i, classIdx? t.finger = some i ∧
        st'.sums i = addVec (st.sums i) (sliceWindow signal t.start pre post) ∧
        st'.counts i = st.counts i + 1 ∧
        (∀ j, j ≠ i → st'.sums j = st.sums j ∧ st'.counts j = st.counts j) ∧
        (sliceWindow signal t.start pre post).length = window_size pre post
    else st' = st := by
  unfold stepTrial at h
  by_cases hinc : includedTrial signal pre post t
  · rw [if_pos hinc] at h ⊢
    cases hcls : classIdx? t.finger with
    | none => rw [hcls] at h; exact absurd h (by simp)
    | some i =>
      rw [hcls] at h
      cases h
      refine ⟨i, rfl, Function.update_same .., Function.update_same .., ?_, ?_⟩
      · intro j hj
        exact ⟨Function.update_noteq hj .., Function.update_noteq hj ..⟩
      · exact sliceWindow_length signal pre post t.start hinc.1 hinc.2
  · rw [if_neg hinc] at h ⊢
    cases h
    rfl

/-- Witness for C1 at the boundary trial `trialB` (window `[0, 9]` over the
10-sample `signalB`). -/
theorem C1_inclusion_rule_witness :
    if includedTrial signalB 1 8 trialB then
      ∃ i, classIdx? trialB.finger = some i ∧
        stB.sums i =
          addVec ((initState (window_size 1 8)).sums i)
            (sliceWindow signalB trialB.start 1 8) ∧
        stB.counts i = (initState (window_size 1 8)).counts i + 1 ∧
        (∀ j, j ≠ i → stB.sums j = (initState (window_size 1 8)).sums j ∧
          stB.counts j = (initState (window_size 1 8)).counts j) ∧
        (sliceWindow signalB trialB.start 1 8).length = window_size 1 8
    else stB = initState (window_size 1 8) :=
  C1_inclusion_rule signalB 1 8 (initState (window_size 1 8)) trialB stB
    (by with_unfolding_all rfl)

theorem addVec_zero_replicate (w : List ℚ) : addVec (List.replicate w.length 0) w = w := by
  induction w with
  | nil => rfl
  | cons a w ih => simpa [addVec, List.replicate_succ] using ih

theorem calc_single_included (signal : Signal) (pre post : Nat) (t : Trial) (i : Fin 5)
    (hs : startOOB signal t = false) (hp : peakOOB signal t = false)
    (hinc : includedTrial signal pre post t) (hcls : classIdx? t.finger = some i)
    (hwl : (sliceWindow signal t.start pre post).length = window_size pre post) :
    calc_mean_erp [t] signal pre post =
      .ok ⟨Function.update (fun _ => List.replicate (window_size pre post) 0) i
             (sliceWindow signal t.start pre post),
           [(t.finger, (sliceWindow signal t.start pre post).sum)]⟩ := by
  unfold calc_mean_erp
  rw [if_neg (by simp [hs]), if_neg (by simp [hp])]
  simp only [runTrials, stepTrial, hcls, if_pos hinc, initState]
  refine congrArg Except.ok ?_
  refine congrArg₂ ErpOutput.mk ?_ (by simp)
  funext j
  by_cases hj : j = i
  · subst hj
    unfold finalize
    simp only [Function.update_same]
    rw [if_pos (by norm_num)]
    rw [← hwl, addVec_zero_replicate]
    simp
  · unfold finalize
    simp only [Function.update_noteq hj]
    rw [if_neg (by norm_num)]

theorem runTrials_ok_spec (signal : Signal) (pre post : Nat) (trials : List Trial) :
    ∀ st st', runTrials signal pre post st trials = .ok st' →
      ∀ i : Fin 5,
        st'.counts i = st.counts i + ((accClass signal pre post i trials).length : ℚ) ∧
        st'.sums i =
          (accClass signal pre post i trials).foldl
            (fun v t => addVec v (sliceWindow signal t.start pre post)) (st.sums i) := by
  induction trials with
  | nil =>
    intro st st' h i
    cases h
    simp [accClass]
  | cons t ts ih =>
    intro st st' h i
    unfold runTrials at h
    unfold stepTrial at h
    by_cases hinc : includedTrial signal pre post t
    · rw [if_pos hinc] at h
      cases hcls : classIdx? t.finger with
      | none => rw [hcls] at h; exact absurd h (by simp)
      | some k =>
        rw [hcls] at h
        have hik := ih _ _ h i
        by_cases hki : k = i
        · subst hki
          have hacc : accClass signal pre post k (t :: ts) = t :: accClass signal pre post k ts := by
            unfold accClass
            rw [List.filter_cons, if_pos (by simp [includedB, hinc, hcls])]
          rw [hacc]
          constructor
          · rw [hik.1]
            simp only [Function.update_same, List.length_cons]
            push_cast
            ring
          · rw [hik.2, List.foldl_cons]
            simp only [Function.update_same]
        · have hacc : accClass signal pre post i (t :: ts) = accClass signal pre post i ts := by
            unfold accClass
            rw [List.filter_cons, if_neg (by simp [includedB, hinc, hcls, hki])]
          rw [hacc]
          constructor
          · rw [hik.1]
            simp only [Function.update_noteq (Ne.symm hki)]
          · rw [hik.2]
            simp only [Function.update_noteq (Ne.symm hki)]
    · rw [if_neg hinc] at h
      have hik := ih _ _ h i
      have hacc : accClass signal pre post i (t :: ts) = accClass signal pre post i ts := by
        unfold accClass
        rw [List.filter_cons, if_neg (by simp [includedB, hinc])]
      rw [hacc]
      exact hik

theorem runTrials_ok_responses (signal : Signal) (pre post : Nat) (trials : List Trial) :
    ∀ st st', runTrials signal pre post st trials = .ok st' →
      st'.responses = st.responses ++
        (includedOnly signal pre post trials).map
          (fun t => (t.finger, (sliceWindow signal t.start pre post).sum)) := by
  induction trials with
  | nil =>
    intro st st' h
    cases h
    simp [includedOnly]
  | cons t ts ih =>
    intro st st' h
    unfold runTrials at h
    unfold stepTrial at h
    by_cases hinc : includedTrial signal pre post t
    · rw [if_pos hinc] at h
      cases hcls : classIdx? t.finger with
      | none => rw [hcls] at h; exact absurd h (by simp)
      | some k =>
        rw [hcls] at h
        have hresp := ih _ _ h
        have hacc : includedOnly signal pre post (t :: ts) = t :: includedOnly signal pre post ts := by
          unfold includedOnly
          rw [List.filter_cons, if_pos (by simp [includedB, hinc])]
        rw [hacc, hresp]
        simp
    · rw [if_neg hinc] at h
      have hacc : includedOnly signal pre post (t :: ts) = includedOnly signal pre post ts := by
        unfold includedOnly
        rw [List.filter_cons, if_neg (by simp [includedB, hinc])]
      rw [hacc]
      exact ih _ _ h

theorem runTrials_isOk_iff (signal : Signal) (pre post : Nat) (trials : List Trial) :
    ∀ st, (∃ st', runTrials signal pre post st trials = .ok st') ↔
      ∀ t ∈ trials, includedTrial signal pre post t → classIdx? t.finger ≠ none := by
  induction trials with
  | nil =>
    intro st
    constructor
    · intro _ t ht
      exact absurd ht (List.not_mem_nil t)
    · intro _
      exact ⟨st, rfl⟩
  | cons t ts ih =>
    intro st
    unfold runTrials
    unfold stepTrial
    by_cases hinc : includedTrial signal pre post t
    · rw [if_pos hinc]
      cases hcls : classIdx? t.finger with
      | none =>
        constructor
        · rintro ⟨st', hst'⟩
          exact absurd hst' (by simp)
        · intro hall
          exact absurd hcls (hall t (List.mem_cons_self t ts) hinc)
      | some k =>
        constructor
        · rintro ⟨st', hst'⟩ u hu huinc
          rcases List.mem_cons.mp hu with rfl | hu'
          · simp [hcls]
          · exact ((ih _).mp ⟨st', hst'⟩) u hu' huinc
        · intro hall
          exact (ih _).mpr (fun u hu huinc => hall u (List.mem_cons_of_mem t hu) huinc)
    · rw [if_neg hinc]
      constructor
      · rintro ⟨st', hst'⟩ u hu huinc
        rcases List.mem_cons.mp hu with rfl | hu'
        · exact absurd huinc hinc
        · exact ((ih _).mp ⟨st', hst'⟩) u hu' huinc
      · intro hall
        exact (ih _).mpr (fun u hu huinc => hall u (List.mem_cons_of_mem t hu) huinc)

theorem runTrials_error_kind (signal : Signal) (pre post : Nat) (trials : List Trial) :
    ∀ st e, runTrials signal pre post st trials = .error e → ∃ k, e = .keyError k := by
  induction trials with
  | nil =>
    intro st e h
    exact absurd h (by simp [runTrials])
  | cons t ts ih =>
    intro st e h
    unfold runTrials at h
    unfold stepTrial at h
    by_cases hinc : includedTrial signal pre post t
    · rw [if_pos hinc] at h
      cases hcls : classIdx? t.finger with
      | none =>
        rw [hcls] at h
        cases h
        exact ⟨t.finger - 1, rfl⟩
      | some k =>
        rw [hcls] at h
        exact ih _ _ h
    · rw [if_neg hinc] at h
      exact ih _ _ h

/-- C2: a class with no qualifying trials keeps the all-zero vector of length
`window_size` (the division branch is skipped, so no division by zero); a
class with positive count gets its accumulated sum divided elementwise by the
count, once, after the loop. -/
theorem C2_zero_count_mean (trials : List Trial) (signal : Signal) (pre post : Nat)
    (st : ErpState)
    (h : runTrials signal pre post (initState (window_size pre post)) trials = .ok st)
    (i : Fin 5) :
    (st.counts i = 0 → finalize st i = List.replicate (window_size pre post) 0) ∧
    (0 < st.counts i → finalize st i = (st.sums i).map (fun x => x / st.counts i)) := by
  have hspec := runTrials_ok_spec signal pre post trials _ _ h i
  constructor
  · intro hzero
    have hlen : ((accClass signal pre post i trials).length : ℚ) = 0 := by
      have := hspec.1
      rw [hzero] at this
      simpa [initState] using this.symm
    have hnil : accClass signal pre post i trials = [] := by
      have := Nat.cast_eq_zero.mp hlen
      exact List.length_eq_zero.mp this
    have hsums : st.sums i = List.replicate (window_size pre post) 0 := by
      have := hspec.2
      rw [hnil] at this
      simpa [initState] using this
    unfold finalize
    rw [if_neg (by rw [hzero]; exact lt_irrefl 0), hsums]
  · intro hpos
    unfold finalize
    rw [if_pos hpos]

/-- Witness for C2: on `signalB` with the single included trial `trialB`
(class 2), class index 1 has count 1 and classes 0, 2, 3, 4 have count 0. -/
theorem C2_zero_count_mean_witness :
    (stB.counts 0 = 0 → finalize stB 0 = List.replicate (window_size 1 8) 0) ∧
    (0 < stB.counts 0 → finalize stB 0 = (stB.sums 0).map (fun x => x / stB.counts 0)) :=
  C2_zero_count_mean [trialB] signalB 1 8 stB (by with_unfolding_all rfl) 0

/-- Scenario A signal: the 2000-sample ramp `[0, 1, …, 1999]`. -/
def signalA : Signal := (List.range 2000).map (fun n : Nat => (n : ℚ))

/-- Scenario A trial: start 500, peak 550, finger 3. -/
def trialA : Trial := ⟨500, 550, 3⟩

/-- Scenario A window: `signal[300 .. 1500]` inclusive. -/
def windowA : List ℚ := (signalA.drop 300).take 1201

theorem signalA_length : signalA.length = 2000 := by simp [signalA]

/-- C3: on the ramp signal with the single trial (start 500, finger 3),
`pre = 200`, `post = 1000`, class 3 (zero-based row 2) gets exactly the
1201-sample window `signal[300 .. 1500]`, and the four other classes are
all-zero vectors. -/
theorem C3_scenarioA :
    calc_mean_erp [trialA] signalA 200 1000 =
      .ok ⟨fun i => if i = 2 then windowA else List.replicate 1201 0,
           [(3, windowA.sum)]⟩ ∧
    windowA = (signalA.drop 300).take 1201 ∧
    windowA.length = 1201 := by
  have hwl : windowA.length = 1201 := by
    have := signalA_length
    simp only [windowA, List.length_take, List.length_drop]
    omega
  have hslice : sliceWindow signalA trialA.start 200 1000 = windowA := by
    show (signalA.drop ((500:Int) - 200).toNat).take (window_size 200 1000) = windowA
    have h2 : ((500:Int) - 200).toNat = 300 := by decide
    rw [h2]
    rfl
  refine ⟨?_, rfl, hwl⟩
  have h := calc_single_included signalA 200 1000 trialA 2
    (by simp [startOOB, trialA, signalA_length])
    (by simp [peakOOB, trialA, signalA_length])
    (by simp [includedTrial, trialA, signalA_length])
    (by decide)
    (by rw [hslice, hwl]; rfl)
  rw [hslice] at h
  rw [h]
  refine congrArg Except.ok (congrArg₂ ErpOutput.mk ?_ rfl)
  funext j
  by_cases hj : j = 2
  · subst hj
    rw [Function.update_same, if_pos rfl]
  · rw [Function.update_noteq hj, if_neg hj]
    rfl

theorem startOOB_iff (signal : Signal) (t : Trial) :
    startOOB signal t = true ↔ t.start < 0 ∨ (signal.length : Int) ≤ t.start := by
  simp [startOOB]

theorem peakOOB_iff (signal : Signal) (t : Trial) :
    peakOOB signal t = true ↔ t.peak < 0 ∨ (signal.length : Int) ≤ t.peak := by
  simp [peakOOB]

/-- C4 (amended): when the table contains a start or peak index outside
`[0, len(signal))`, the computation fails before any accumulation with a
`ValueError` that names the offending field (start or peak) — but not the
offending row — and no result is returned. -/
theorem C4_bounds_validation (trials : List Trial) (signal : Signal) (pre post : Nat)
    (h : ∃ t ∈ trials, t.start < 0 ∨ (signal.length : Int) ≤ t.start ∨
          t.peak < 0 ∨ (signal.length : Int) ≤ t.peak) :
    (calc_mean_erp trials signal pre post = .error .startOutOfBounds ∧
       ∃ t ∈ trials, t.start < 0 ∨ (signal.length : Int) ≤ t.start) ∨
    (calc_mean_erp trials signal pre post = .error .peakOutOfBounds ∧
       ∃ t ∈ trials, t.peak < 0 ∨ (signal.length : Int) ≤ t.peak) := by
  unfold calc_mean_erp
  by_cases hS : trials.any (startOOB signal) = true
  · left
    rw [if_pos hS]
    obtain ⟨t, ht, hb⟩ := List.any_eq_true.mp hS
    exact ⟨rfl, t, ht, (startOOB_iff signal t).mp hb⟩
  · have hSf : trials.any (startOOB signal) = false := by simpa using hS
    have hnostart : ∀ t ∈ trials, ¬(t.start < 0 ∨ (signal.length : Int) ≤ t.start) := by
      intro t ht
      intro hc
      exact (List.any_eq_false.mp hSf t ht) ((startOOB_iff signal t).mpr hc)
    obtain ⟨t, ht, hc⟩ := h
    have hpk : t.peak < 0 ∨ (signal.length : Int) ≤ t.peak := by
      rcases hc with h1 | h2 | h3 | h4
      · exact absurd (Or.inl h1) (hnostart t ht)
      · exact absurd (Or.inr h2) (hnostart t ht)
      · exact Or.inl h3
      · exact Or.inr h4
    have hP : trials.any (peakOOB signal) = true :=
      List.any_eq_true.mpr ⟨t, ht, (peakOOB_iff signal t).mpr hpk⟩
    right
    rw [if_neg hS, if_pos hP]
    exact ⟨rfl, t, ht, hpk⟩

/-- Witness for C4 (amended): a table whose only trial has start −1 on the
10-sample `signalB` fails with the start-field error. -/
theorem C4_bounds_validation_witness :
    (calc_mean_erp [⟨-1, 0, 1⟩] signalB 1 1 = .error .startOutOfBounds ∧
       ∃ t ∈ [(⟨-1, 0, 1⟩ : Trial)], t.start < 0 ∨ (signalB.length : Int) ≤ t.start) ∨
    (calc_mean_erp [⟨-1, 0, 1⟩] signalB 1 1 = .error .peakOutOfBounds ∧
       ∃ t ∈ [(⟨-1, 0, 1⟩ : Trial)], t.peak < 0 ∨ (signalB.length : Int) ≤ t.peak) :=
  C4_bounds_validation [⟨-1, 0, 1⟩] signalB 1 1
    ⟨⟨-1, 0, 1⟩, List.mem_singleton_self _, Or.inl (by norm_num)⟩

/-- C4 counterexample: the error does not name the offending row — moving the
out-of-bounds trial from row 0 to row 1 yields the identical error value, so
the claim that the validation error names which row offends is false. -/
theorem C4_row_not_named_cex :
    calc_mean_erp [⟨100, 0, 1⟩, ⟨0, 0, 1⟩] signalB 1 1 = .error .startOutOfBounds ∧
    calc_mean_erp [⟨0, 0, 1⟩, ⟨100, 0, 1⟩] signalB 1 1 = .error .startOutOfBounds := by
  constructor <;> with_unfolding_all rfl

/-- C5 counterexample: a table whose only trial has finger 7 (outside [1,5])
but whose window does not fit: `calc_mean_erp` returns a normal result, so no
InvalidClass validation error is ever raised. -/
theorem C5_no_finger_validation_cex :
    calc_mean_erp [⟨0, 0, 7⟩] signalB 2 1 =
      .ok ⟨fun _ => List.replicate 4 0, []⟩ ∧
    ¬(1 ≤ (7 : Int) ∧ (7 : Int) ≤ 5) := by
  constructor
  · with_unfolding_all rfl
  · decide

/-- C5 (amended): the code has no finger validation step; when the bounds
validation passes and some trial whose window fits has a finger label outside
[1,5], the computation aborts with a pandas `KeyError` raised during
accumulation (while an out-of-range finger on an excluded trial is silently
skipped, as the counterexample shows). -/
theorem C5_bad_finger_keyerror (trials : List Trial) (signal : Signal) (pre post : Nat)
    (hs : trials.any (startOOB signal) = false) (hp : trials.any (peakOOB signal) = false)
    (t : Trial) (ht : t ∈ trials) (hinc : includedTrial signal pre post t)
    (hbad : ¬(1 ≤ t.finger ∧ t.finger ≤ 5)) :
    ∃ k, calc_mean_erp trials signal pre post = .error (.keyError k) := by
  have hnone : classIdx? t.finger = none := by
    unfold classIdx?
    rw [dif_neg (by omega)]
  have hnotok : ∀ st',
      runTrials signal pre post (initState (window_size pre post)) trials ≠ .ok st' := by
    intro st' hok
    exact (runTrials_isOk_iff signal pre post trials _).mp ⟨st', hok⟩ t ht hinc hnone
  unfold calc_mean_erp
  rw [if_neg (by simp [hs]), if_neg (by simp [hp])]
  cases hrun : runTrials signal pre post (initState (window_size pre post)) trials with
  | ok st' => exact absurd hrun (hnotok st')
  | error e =>
    obtain ⟨k, hk⟩ := runTrials_error_kind signal pre post trials _ _ hrun
    exact ⟨k, by rw [hk]⟩

/-- Witness for C5 (amended): finger 7 on an included window aborts with a
`KeyError`. -/
theorem C5_bad_finger_keyerror_witness :
    ∃ k, calc_mean_erp [⟨3, 0, 7⟩] signalB 1 1 = .error (.keyError k) :=
  C5_bad_finger_keyerror [⟨3, 0, 7⟩] signalB 1 1 (by with_unfolding_all rfl)
    (by with_unfolding_all rfl) ⟨3, 0, 7⟩ (List.mem_singleton_self _)
    (by norm_num [includedTrial, signalB]) (by decide)

/-- A trial table whose start column is `[10, 11.4, missing]`: the column mean
of the present values is 10.7. -/
def rawTable6 : List RawTrial :=
  [⟨some 10, some 0, some 1⟩, ⟨some (57/5), some 0, some 1⟩, ⟨none, some 0, some 1⟩]

/-- C6 counterexample: with a start-column mean of 10.7, the imputed missing
start becomes 10 (truncation toward zero by `astype(int)`), although the
nearest integer to 10.7 is 11 — refuting round-to-nearest imputation. -/
theorem C6_truncation_cex :
    colMean (rawTable6.map (·.start)) = some (107/10) ∧
    imputeTable rawTable6 = some [⟨10, 0, 1⟩, ⟨11, 0, 1⟩, ⟨10, 0, 1⟩] ∧
    (11 : ℚ) - 107/10 < (107 : ℚ)/10 - 10 := by
  refine ⟨by with_unfolding_all rfl, by with_unfolding_all rfl, by norm_num⟩

theorem optMap_get (f : α → Option β) : ∀ (xs : List α) (ys : List β),
    optMap f xs = some ys → ys.length = xs.length ∧
      ∀ i (hx : i < xs.length) (hy : i < ys.length),
        f (xs.get ⟨i, hx⟩) = some (ys.get ⟨i, hy⟩) := by
  intro xs
  induction xs with
  | nil =>
    intro ys h
    cases h
    exact ⟨rfl, fun i hx _ => absurd hx (Nat.not_lt_zero i)⟩
  | cons x xs ih =>
    intro ys h
    unfold optMap at h
    cases hfx : f x with
    | none => rw [hfx] at h; exact absurd h (by simp)
    | some y =>
      rw [hfx] at h
      cases hrest : optMap f xs with
      | none => rw [hrest] at h; exact absurd h (by simp)
      | some ys' =>
        rw [hrest] at h
        cases h
        obtain ⟨hlen, hget⟩ := ih ys' hrest
        refine ⟨by simpa using hlen, ?_⟩
        intro i hx hy
        cases i with
        | zero => simpa using hfx
        | succ j =>
          exact hget j (Nat.lt_of_succ_lt_succ hx) (Nat.lt_of_succ_lt_succ hy)

/-- C6 (amended): a missing numeric field is replaced by its column mean and
then, like every field, cast by Python `int` — truncated toward zero, not
rounded to nearest (a column mean of 10.7 yields the index 10): each imputed
row is the elementwise `truncQ` of the `fillna`-completed raw row. -/
theorem C6_impute_truncates (raws : List RawTrial) (ts : List Trial)
    (h : imputeTable raws = some ts) (i : Nat) (hx : i < raws.length)
    (hy : i < ts.length) (ms mp mf : ℚ)
    (hs : fillField (colMean (raws.map (·.start))) (raws.get ⟨i, hx⟩).start = some ms)
    (hp : fillField (colMean (raws.map (·.peak))) (raws.get ⟨i, hx⟩).peak = some mp)
    (hf : fillField (colMean (raws.map (·.finger))) (raws.get ⟨i, hx⟩).finger = some mf) :
    ts.get ⟨i, hy⟩ = ⟨truncQ ms, truncQ mp, truncQ mf⟩ := by
  have hrow := (optMap_get _ raws ts h).2 i hx hy
  unfold imputeTrial at hrow
  rw [hs, hp, hf] at hrow
  simpa using hrow.symm

/-- Witness for C6 (amended): row 2 of `rawTable6` (missing start, column
mean 10.7) is imputed to start 10. -/
theorem C6_impute_truncates_witness :
    ([⟨10, 0, 1⟩, ⟨11, 0, 1⟩, ⟨10, 0, 1⟩] : List Trial).get ⟨2, by norm_num⟩ =
      ⟨truncQ (107/10), truncQ 0, truncQ 1⟩ :=
  C6_impute_truncates rawTable6 [⟨10, 0, 1⟩, ⟨11, 0, 1⟩, ⟨10, 0, 1⟩]
    (by with_unfolding_all rfl) 2 (by norm_num [rawTable6]) (by norm_num)
    (107/10) 0 1 (by with_unfolding_all rfl) (by with_unfolding_all rfl)
    (by with_unfolding_all rfl)

/-- C7 (amended): the correlation input reuses exactly the ERP inclusion
rule — a trial contributes a `(finger, sum(window))` pair if and only if it is
accumulated (the response list is precisely the included trials' pairs, and a
step appends a pair exactly when it increments a class count) — but with
fewer than 2 included trials the code does not fail: it still returns the ERP
result normally (pandas `corr` merely prints NaN). -/
theorem C7_correlation_inclusion (signal : Signal) (pre post : Nat) :
    (∀ trials st,
       trials.any (startOOB signal) = false →
       trials.any (peakOOB signal) = false →
       runTrials signal pre post (initState (window_size pre post)) trials = .ok st →
       calc_mean_erp trials signal pre post = .ok ⟨finalize st, st.responses⟩ ∧
       st.responses =
         (includedOnly signal pre post trials).map
           (fun t => (t.finger, (sliceWindow signal t.start pre post).sum))) ∧
    (∀ st t st', stepTrial signal pre post st t = .ok st' →
       (includedTrial signal pre post t →
          st'.responses =
            st.responses ++ [(t.finger, (sliceWindow signal t.start pre post).sum)] ∧
          ∃ i, classIdx? t.finger = some i ∧ st'.counts i = st.counts i + 1) ∧
       (¬includedTrial signal pre post t → st' = st)) := by
  constructor
  · intro trials st hs hp hrun
    constructor
    · unfold calc_mean_erp
      rw [if_neg (by simp [hs]), if_neg (by simp [hp]), hrun]
    · have := runTrials_ok_responses signal pre post trials _ _ hrun
      simpa [initState] using this
  · intro st t st' h
    unfold stepTrial at h
    by_cases hinc : includedTrial signal pre post t
    · rw [if_pos hinc] at h
      cases hcls : classIdx? t.finger with
      | none => rw [hcls] at h; exact absurd h (by simp)
      | some i =>
        rw [hcls] at h
        cases h
        refine ⟨fun _ => ⟨rfl, i, rfl, ?_⟩, fun hn => absurd hinc hn⟩
        simp only [Function.update_same]
    · rw [if_neg hinc] at h
      cases h
      exact ⟨fun hc => absurd hc hinc, fun _ => rfl⟩

/-- Witness for C7 (amended), instantiated on `signalB` with the single
included trial `trialB`. -/
theorem C7_correlation_inclusion_witness :
    (calc_mean_erp [trialB] signalB 1 8 = .ok ⟨finalize stB, stB.responses⟩ ∧
     stB.responses =
       (includedOnly signalB 1 8 [trialB]).map
         (fun t => (t.finger, (sliceWindow signalB t.start 1 8).sum))) ∧
    ((includedTrial signalB 1 8 trialB →
        stB.responses = (initState (window_size 1 8)).responses ++
          [(trialB.finger, (sliceWindow signalB trialB.start 1 8).sum)] ∧
        ∃ i, classIdx? trialB.finger = some i ∧
          stB.counts i = (initState (window_size 1 8)).counts i + 1) ∧
     (¬includedTrial signalB 1 8 trialB → stB = initState (window_size 1 8))) :=
  ⟨(C7_correlation_inclusion signalB 1 8).1 [trialB] stB (by with_unfolding_all rfl)
      (by with_unfolding_all rfl) (by with_unfolding_all rfl),
   (C7_correlation_inclusion signalB 1 8).2 (initState (window_size 1 8)) trialB stB
      (by with_unfolding_all rfl)⟩

/-- C7 counterexample: with exactly one trial passing the inclusion rule
(fewer than 2), the computation does not fail with any error — refuting the
claimed InsufficientData failure — and returns the single response pair. -/
theorem C7_insufficient_data_cex :
    calc_mean_erp [trialB] signalB 1 8 =
      .ok ⟨Function.update (fun _ => List.replicate 10 0) 1 signalB,
           [(2, signalB.sum)]⟩ ∧
    [(2, signalB.sum)].length < 2 := by
  constructor
  · have h := calc_single_included signalB 1 8 trialB 1
      (by with_unfolding_all rfl) (by with_unfolding_all rfl)
      (by norm_num [includedTrial, trialB, signalB])
      (by decide)
      (by with_unfolding_all rfl)
    rw [h]
    with_unfolding_all rfl
  · norm_num

theorem addVec_right_comm (v w₁ w₂ : List ℚ) :
    addVec (addVec v w₁) w₂ = addVec (addVec v w₂) w₁ := by
  induction v generalizing w₁ w₂ with
  | nil => simp [addVec]
  | cons a v ih =>
    cases w₁ with
    | nil => simp [addVec]
    | cons b w₁ =>
      cases w₂ with
      | nil => simp [addVec]
      | cons c w₂ =>
        simp only [addVec, List.zipWith_cons_cons]
        rw [add_right_comm]
        exact congrArg _ (ih w₁ w₂)

theorem perm_any {α : Type} {l₁ l₂ : List α} (p : l₁.Perm l₂) (f : α → Bool) :
    l₁.any f = l₂.any f := by
  cases h : l₂.any f with
  | true =>
    obtain ⟨x, hx, hfx⟩ := List.any_eq_true.mp h
    exact List.any_eq_true.mpr ⟨x, p.mem_iff.mpr hx, hfx⟩
  | false =>
    refine List.any_eq_false.mpr ?_
    intro x hx
    exact List.any_eq_false.mp h x (p.mem_iff.mp hx)

/-- C8: permuting the rows of the trial table leaves the returned per-class
mean matrix unchanged (exact arithmetic): whenever the original table returns
a result, the permuted table returns a result with the same mean matrix. -/
theorem C8_order_invariant (trials trials' : List Trial) (signal : Signal)
    (pre post : Nat) (hperm : trials.Perm trials') (out : ErpOutput)
    (h : calc_mean_erp trials signal pre post = .ok out) :
    ∃ out', calc_mean_erp trials' signal pre post = .ok out' ∧
      out'.fingers_erp_mean = out.fingers_erp_mean := by
  unfold calc_mean_erp at h ⊢
  by_cases hS : trials.any (startOOB signal) = true
  · rw [if_pos hS] at h
    exact absurd h (by simp)
  · rw [if_neg hS] at h
    by_cases hP : trials.any (peakOOB signal) = true
    · rw [if_pos hP] at h
      exact absurd h (by simp)
    · rw [if_neg hP] at h
      rw [if_neg (by rw [perm_any hperm.symm (startOOB signal)]; exact hS),
        if_neg (by rw [perm_any hperm.symm (peakOOB signal)]; exact hP)]
      cases hrun : runTrials signal pre post (initState (window_size pre post)) trials with
      | error e => rw [hrun] at h; exact absurd h (by simp)
      | ok st =>
        rw [hrun] at h
        have hok' : ∃ st',
            runTrials signal pre post (initState (window_size pre post)) trials' = .ok st' := by
          refine (runTrials_isOk_iff signal pre post trials' _).mpr ?_
          intro u hu huinc
          exact (runTrials_isOk_iff signal pre post trials _).mp ⟨st, hrun⟩ u
            (hperm.mem_iff.mpr hu) huinc
        obtain ⟨st', hrun'⟩ := hok'
        rw [hrun']
        refine ⟨⟨finalize st', st'.responses⟩, rfl, ?_⟩
        have hmat : finalize st' = finalize st := by
          have hspec := runTrials_ok_spec signal pre post trials _ _ hrun
          have hspec' := runTrials_ok_spec signal pre post trials' _ _ hrun'
          have hfacc : ∀ i : Fin 5,
              (accClass signal pre post i trials).Perm
                (accClass signal pre post i trials') := by
            intro i
            exact hperm.filter _
          have hcounts : ∀ i, st'.counts i = st.counts i := by
            intro i
            rw [(hspec i).1, (hspec' i).1, (hfacc i).length_eq]
          have hsums : ∀ i, st'.sums i = st.sums i := by
            intro i
            rw [(hspec i).2, (hspec' i).2,
              (hfacc i).foldl_eq' (fun x _ y _ z => addVec_right_comm z
                (sliceWindow signal x.start pre post) (sliceWindow signal y.start pre post))]
          funext i
          unfold finalize
          rw [hcounts i, hsums i]
        rw [hmat]
        have hout : out = ⟨finalize st, st.responses⟩ := by
          cases h
          rfl
        rw [hout]

/-- Two included trials of distinct classes on `signalB`. -/
def trialsC8 : List Trial := [⟨1, 0, 2⟩, ⟨2, 0, 1⟩]

/-- The output of `calc_mean_erp` on `trialsC8`. -/
def outC8 : ErpOutput :=
  ((calc_mean_erp trialsC8 signalB 1 1).toOption).getD ⟨fun _ => [], []⟩

/-- Witness for C8: swapping the two rows of `trialsC8` preserves the mean
matrix. -/
theorem C8_order_invariant_witness :
    ∃ out', calc_mean_erp [⟨2, 0, 1⟩, ⟨1, 0, 2⟩] signalB 1 1 = .ok out' ∧
      out'.fingers_erp_mean = outC8.fingers_erp_mean :=
  C8_order_invariant trialsC8 [⟨2, 0, 1⟩, ⟨1, 0, 2⟩] signalB 1 1
    (by unfold trialsC8; exact List.Perm.swap _ _ _) outC8 (by with_unfolding_all rfl)

/-- C9: the computation is deterministic — the same trials, signal and window
configuration give the identical result — and the division by each class
count is performed exactly once, after all accumulation: every
positive-count class mean is the undivided foldl of its included windows
divided elementwise by the number of those windows at the end. -/
theorem C9_deterministic_division_once (trials : List Trial) (signal : Signal)
    (pre post : Nat) :
    calc_mean_erp trials signal pre post = calc_mean_erp trials signal pre post ∧
    ∀ st, runTrials signal pre post (initState (window_size pre post)) trials = .ok st →
      ∀ i : Fin 5, 0 < st.counts i →
        finalize st i =
          ((accClass signal pre post i trials).foldl
              (fun v t => addVec v (sliceWindow signal t.start pre post))
              (List.replicate (window_size pre post) 0)).map
            (fun x => x / ((accClass signal pre post i trials).length : ℚ)) := by
  refine ⟨rfl, ?_⟩
  intro st hrun i hpos
  have hspec := runTrials_ok_spec signal pre post trials _ _ hrun i
  have h1 := hspec.1
  have h2 := hspec.2
  simp only [initState] at h1 h2
  rw [zero_add] at h1
  unfold finalize
  rw [if_pos hpos, h1, h2]

/-- Witness for C9 on `signalB` with the single included trial `trialB`
(class index 1 has count 1). -/
theorem C9_deterministic_division_once_witness :
    finalize stB 1 =
      ((accClass signalB 1 8 1 [trialB]).foldl
          (fun v t => addVec v (sliceWindow signalB t.start 1 8))
          (List.replicate (window_size 1 8) 0)).map
        (fun x => x / ((accClass signalB 1 8 1 [trialB]).length : ℚ)) :=
  (C9_deterministic_division_once [trialB] signalB 1 8).2 stB
    (by with_unfolding_all rfl) 1 (by with_unfolding_all decide)

theorem stepTrial_peak_blind (signal : Signal) (pre post : Nat) (st : ErpState)
    (t : Trial) (p : Int) :
    stepTrial signal pre post st { t with peak := p } = stepTrial signal pre post st t := rfl

theorem runTrials_setPeaks (signal : Signal) (pre post : Nat) :
    ∀ (trials : List Trial) (ps : List Int), ps.length = trials.length → ∀ st,
      runTrials signal pre post st (setPeaks trials ps) =
        runTrials signal pre post st trials := by
  intro trials
  induction trials with
  | nil => intro ps h st; rfl
  | cons t ts ih =>
    intro ps h st
    cases ps with
    | nil => simp at h
    | cons p ps' =>
      show runTrials signal pre post st ({ t with peak := p } :: setPeaks ts ps') = _
      unfold runTrials
      rw [stepTrial_peak_blind]
      cases hstep : stepTrial signal pre post st t with
      | ok st' => exact ih ps' (by simpa using h) st'
      | error e => rfl

theorem setPeaks_any_start (signal : Signal) :
    ∀ (trials : List Trial) (ps : List Int), ps.length = trials.length →
      (setPeaks trials ps).any (startOOB signal) = trials.any (startOOB signal) := by
  intro trials
  induction trials with
  | nil => intro ps h; rfl
  | cons t ts ih =>
    intro ps h
    cases ps with
    | nil => simp at h
    | cons p ps' =>
      show ({ t with peak := p } :: setPeaks ts ps').any (startOOB signal) = _
      simp only [List.any_cons]
      rw [ih ps' (by simpa using h)]
      rfl

theorem any_peakOOB_false (signal : Signal) (trials : List Trial)
    (h : ∀ t ∈ trials, 0 ≤ t.peak ∧ t.peak < (signal.length : Int)) :
    trials.any (peakOOB signal) = false := by
  refine List.any_eq_false.mpr ?_
  intro t ht
  have hb := h t ht
  simp only [peakOOB, Bool.or_eq_true, decide_eq_true_eq]
  omega

theorem setPeaks_peak_mem : ∀ (trials : List Trial) (ps : List Int) (u : Trial),
    u ∈ setPeaks trials ps → u.peak ∈ ps := by
  intro trials
  induction trials with
  | nil => intro ps u hu; simp [setPeaks] at hu
  | cons t ts ih =>
    intro ps u hu
    cases ps with
    | nil => simp [setPeaks] at hu
    | cons p ps' =>
      simp only [setPeaks, List.zipWith_cons_cons] at hu
      rcases List.mem_cons.mp hu with rfl | hu'
      · exact List.mem_cons_self ..
      · exact List.mem_cons_of_mem _ (ih ps' u hu')

/-- C10 (implicit): the result does not depend on the in-bounds peak column —
replacing all peak indices with any other in-bounds values yields the
identical result, since peaks are only range-validated and never used in
window extraction or accumulation. -/
theorem C10_peak_independent (trials : List Trial) (ps : List Int) (signal : Signal)
    (pre post : Nat) (hlen : ps.length = trials.length)
    (hpk : ∀ t ∈ trials, 0 ≤ t.peak ∧ t.peak < (signal.length : Int))
    (hps : ∀ p ∈ ps, 0 ≤ p ∧ p < (signal.length : Int)) :
    calc_mean_erp (setPeaks trials ps) signal pre post =
      calc_mean_erp trials signal pre post := by
  unfold calc_mean_erp
  rw [setPeaks_any_start signal trials ps hlen,
    any_peakOOB_false signal trials hpk,
    any_peakOOB_false signal (setPeaks trials ps)
      (fun u hu => hps u.peak (setPeaks_peak_mem trials ps u hu)),
    runTrials_setPeaks signal pre post trials ps hlen]

/-- Witness for C10: changing `trialB`'s peak from 0 to 5 leaves the result
unchanged. -/
theorem C10_peak_independent_witness :
    calc_mean_erp (setPeaks [trialB] [5]) signalB 1 8 =
      calc_mean_erp [trialB] signalB 1 8 :=
  C10_peak_independent [trialB] [5] signalB 1 8 rfl
    (by norm_num [trialB, signalB]) (by norm_num [signalB])

end MeanErp
